import Mathlib

/-!
Shallow embedding of the Skribbl speaker-identification pipeline:
the voice library (`diarize/voice_library.py`), the segment-speaker
resolution and transcript merging in `diarize/transcribe.py`, and the
enrollment CLI (`diarize/enroll.py`).  Real-valued audio samples and
embeddings are modelled as lists of reals, Python floats for time
values as rationals, and fallible operations return `Except`.
-/

/-- Python `int()` on a rational: truncation toward zero. -/
def pyInt (q : ℚ) : ℤ := if 0 ≤ q then ⌊q⌋ else ⌈q⌉

/-- Clamp an integer slice index `i` into `[0, len]` the way Python
list slicing does (negative indices count from the end, everything is
clipped into range). -/
def pyBound (len : ℕ) (i : ℤ) : ℕ :=
  if i < 0 then ((len : ℤ) + i).toNat else min i.toNat len

/-- Python slice `xs[i:j]` on a list of samples. -/
def pySlice (xs : List ℝ) (i j : ℤ) : List ℝ :=
  (xs.take (pyBound xs.length j)).drop (pyBound xs.length i)

/-- `SpeakerProfile` from `voice_library.py`: an enrolled speaker. -/
structure SpeakerProfile where
  name : String
  embedding : List ℝ
  enrollment_file : String
  created_at : String

/-- `np.dot` on two equal-length one-dimensional arrays (the caller is
responsible for the length check; see `cosine_similarity`). -/
noncomputable def dotList : List ℝ → List ℝ → ℝ
  | a :: as, b :: bs => a * b + dotList as bs
  | _, _ => 0

/-- `np.linalg.norm` of a one-dimensional array. -/
noncomputable def l2norm (a : List ℝ) : ℝ := Real.sqrt (dotList a a)

/-- `VoiceLibrary._cosine_similarity`: `np.dot` raises on mismatched
1-D shapes, which surfaces as the `DimensionMismatch` error of the
design's error taxonomy; on equal lengths it returns
`a . b / (|a| * |b|)`. -/
noncomputable def cosine_similarity (a b : List ℝ) : Except String ℝ :=
  if a.length = b.length then
    .ok (dotList a b / (l2norm a * l2norm b))
  else
    .error "DimensionMismatch"

/-- The accumulation loop of `VoiceLibrary.identify_speaker`:
`best_score` starts at the threshold and is replaced only on a strict
improvement (`similarity > best_score`). -/
noncomputable def identifyLoop (emb : List ℝ) :
    List (String × SpeakerProfile) → Option String → ℝ → Except String (Option String)
  | [], best, _ => .ok best
  | (nm, p) :: rest, best, best_score =>
    match cosine_similarity emb p.embedding with
    | .error e => .error e
    | .ok sim =>
      if best_score < sim then identifyLoop emb rest (some nm) sim
      else identifyLoop emb rest best best_score

/-- `VoiceLibrary.identify_speaker`: `None` on an empty profile dict,
otherwise the threshold-tracking loop over the profiles in iteration
order. -/
noncomputable def identify_speaker (profiles : List (String × SpeakerProfile))
    (emb : List ℝ) (threshold : ℝ) : Except String (Option String) :=
  if profiles.isEmpty then .ok none
  else identifyLoop emb profiles none threshold

/-- One metadata artifact as enumerated by `load_profiles`: the file
stem of the `.json` file, the fields stored inside it, and the
embedding `.npy` artifact (absent when the file is missing). -/
structure ProfileFile where
  stem : String
  meta_name : String
  meta_enrollment_file : String
  meta_created_at : String
  npy : Option (List ℝ)

/-- The profile built by `load_profiles` from one artifact pair:
the `name` field comes from the metadata contents, not the stem. -/
def profileOf (f : ProfileFile) (e : List ℝ) : SpeakerProfile :=
  ⟨f.meta_name, e, f.meta_enrollment_file, f.meta_created_at⟩

/-- Python dict assignment `d[k] = v`: replace in place if the key is
present, else append at the end (insertion order is preserved). -/
def dictInsert (m : List (String × SpeakerProfile)) (k : String) (v : SpeakerProfile) :
    List (String × SpeakerProfile) :=
  if (m.lookup k).isSome then
    m.map fun p => if p.1 == k then (k, v) else p
  else m ++ [(k, v)]

/-- One iteration of the `load_profiles` scan: skip the artifact when
its embedding file is missing, otherwise store the profile under the
metadata file's stem. -/
def loadStep (acc : List (String × SpeakerProfile)) (f : ProfileFile) :
    List (String × SpeakerProfile) :=
  match f.npy with
  | none => acc
  | some e => dictInsert acc f.stem (profileOf f e)

/-- `VoiceLibrary.load_profiles`: clear the cache, then scan the
metadata artifacts, keying each loaded profile by the file stem. -/
def load_profiles (files : List ProfileFile) : List (String × SpeakerProfile) :=
  files.foldl loadStep []

/-- `VoiceLibrary.get_profile`: dictionary lookup by name. -/
def get_profile (profiles : List (String × SpeakerProfile)) (nm : String) :
    Option SpeakerProfile :=
  profiles.lookup nm

/-- One diarized segment as produced by the diarization collaborator:
start and stop times in seconds, plus an anonymous speaker label. -/
structure DiarSeg where
  start : ℚ
  stop : ℚ
  label : String

/-- The audio slice `others_audio[int(segment.start * 16000):int(segment.end * 16000)]`
taken by `identify_speakers` in `transcribe.py`. -/
def segSlice (wave : List ℝ) (s : DiarSeg) : List ℝ :=
  pySlice wave (pyInt (s.start * 16000)) (pyInt (s.stop * 16000))

/-- The first loop of `identify_speakers` in `transcribe.py`: walk the
diarized segments, and for each label not yet present in
`speaker_embeddings` compute the embedding of that segment's audio
slice.  The accumulator carries the association list together with the
number of embedding-collaborator calls made so far. -/
def buildEmbeddings (embed : List ℝ → List ℝ) (wave : List ℝ) :
    List DiarSeg → List (String × List ℝ) × ℕ → List (String × List ℝ) × ℕ
  | [], acc => acc
  | s :: rest, (m, c) =>
    if (m.lookup s.label).isSome then
      buildEmbeddings embed wave rest (m, c)
    else
      buildEmbeddings embed wave rest (m ++ [(s.label, embed (segSlice wave s))], c + 1)

/-- The second loop of `identify_speakers`: match every representative
embedding against the library with threshold `0.7`, keeping only the
labels for which a name was identified. -/
noncomputable def matchLoop (profiles : List (String × SpeakerProfile)) :
    List (String × List ℝ) → Except String (List (String × String))
  | [] => .ok []
  | (lab, emb) :: rest =>
    match identify_speaker profiles emb (7 / 10) with
    | .error e => .error e
    | .ok none => matchLoop profiles rest
    | .ok (some nm) =>
      match matchLoop profiles rest with
      | .error e => .error e
      | .ok tail => .ok ((lab, nm) :: tail)

/-- `identify_speakers` from `transcribe.py`, instrumented: the result
carries the label-to-name mapping, the number of embedding-collaborator
calls, and whether the embedding model was constructed at all.  With an
empty profile library it returns before constructing the model. -/
noncomputable def identify_speakers (profiles : List (String × SpeakerProfile))
    (embed : List ℝ → List ℝ) (segs : List DiarSeg) (wave : List ℝ) :
    Except String (List (String × String)) × ℕ × Bool :=
  if profiles.isEmpty then (.ok [], 0, false)
  else
    let built := buildEmbeddings embed wave segs ([], 0)
    (matchLoop profiles built.1, built.2, true)

/-- Python `f"{n:02d}"` for the integers produced by `format_timestamp`:
zero-pad to two digits. -/
def pad2 (n : ℤ) : String :=
  if 0 ≤ n ∧ n < 10 then "0" ++ toString n else toString n

/-- `format_timestamp` from `transcribe.py`: `divmod(int(seconds), 60)`
twice, then zero-padded rendering.  Python `divmod` is floor division
with a matching remainder, which for the positive divisor 60 coincides
with `Int.ediv` and `Int.emod`. -/
def format_timestamp (seconds : ℚ) : String :=
  let t := pyInt seconds
  let m := t.ediv 60
  let s := t.emod 60
  let h := m.ediv 60
  let m2 := m.emod 60
  pad2 h ++ ":" ++ pad2 m2 ++ ":" ++ pad2 s

/-- A transcript segment as merged in `main` of `transcribe.py`: only
the fields relevant to merging and rendering. -/
structure TSeg where
  start : ℚ
  speaker : String
  text : String

/-- Lines 186-187 of `transcribe.py`: concatenate the self-track and
others-track segment lists and sort by `start`.  Python `list.sort` is
a stable sort, modelled by `List.mergeSort`. -/
def merge_segments (selfSegs othersSegs : List TSeg) : List TSeg :=
  (selfSegs ++ othersSegs).mergeSort fun a b => decide (a.start ≤ b.start)

/-- Python `str.lower()` as applied to the interactive response in
`cmd_enroll` (character-wise ASCII case folding). -/
def pyLower (s : String) : String := ⟨s.data.map Char.toLower⟩

/-- The exit code of `cmd_enroll` in `enroll.py`, as a function of the
observable branch conditions: whether the audio file exists, whether
the speaker is already enrolled, the raw interactive response to the
overwrite prompt, and whether `enroll_speaker` raises.  A normal return
of `cmd_enroll` lets the process finish with exit code 0. -/
def cmd_enroll (audio_exists already_enrolled : Bool) (response : String)
    (enroll_raises : Bool) : ℕ :=
  if !audio_exists then 1
  else if already_enrolled && !(pyLower response == "y") then 0
  else if enroll_raises then 1
  else 0

/-- Modelled from the spec: rendering of a whole number of seconds as
hours, minutes and seconds, "each zero-padded to two digits with the
hour count unbounded".  Used to state C8 against `format_timestamp`. -/
def renderHMS (n : ℕ) : String :=
  pad2 ((n / 3600 : ℕ) : ℤ) ++ ":" ++ pad2 ((n % 3600 / 60 : ℕ) : ℤ) ++ ":"
    ++ pad2 ((n % 60 : ℕ) : ℤ)

lemma cosine_similarity_error_eq {a b : List ℝ} {e : String}
    (h : cosine_similarity a b = .error e) : e = "DimensionMismatch" := by
  unfold cosine_similarity at h
  split at h <;> simp_all

lemma cosine_similarity_ok_length {a b : List ℝ} {s : ℝ}
    (h : cosine_similarity a b = .ok s) : a.length = b.length := by
  unfold cosine_similarity at h
  split at h <;> simp_all

lemma identifyLoop_ok_some {emb : List ℝ} {t : ℝ}
    {P : List (String × SpeakerProfile)} :
    ∀ (rest : List (String × SpeakerProfile)), (∀ x ∈ rest, x ∈ P) →
    ∀ (best : Option String) (score : ℝ),
      (∀ m, best = some m →
        ∃ p s, (m, p) ∈ P ∧ cosine_similarity emb p.embedding = .ok s ∧ t < s) →
      t ≤ score →
      ∀ n, identifyLoop emb rest best score = .ok (some n) →
      ∃ p s, (n, p) ∈ P ∧ cosine_similarity emb p.embedding = .ok s ∧ t < s := by
  intro rest
  induction rest with
  | nil =>
    intro _ best score hbest _ n h
    simp only [identifyLoop] at h
    exact hbest n (by injection h)
  | cons x rest ih =>
    obtain ⟨nm, p⟩ := x
    intro hsub best score hbest hts n h
    simp only [identifyLoop] at h
    cases hc : cosine_similarity emb p.embedding with
    | error e => rw [hc] at h; simp at h
    | ok sim =>
      rw [hc] at h
      simp only at h
      by_cases hlt : score < sim
      · rw [if_pos hlt] at h
        refine ih (fun y hy => hsub y (List.mem_cons_of_mem _ hy)) (some nm) sim ?_ ?_ n h
        · intro m hm
          obtain rfl : nm = m := by injection hm
          exact ⟨p, sim, hsub (nm, p) (List.mem_cons_self _ _), hc, lt_of_le_of_lt hts hlt⟩
        · exact le_of_lt (lt_of_le_of_lt hts hlt)
      · rw [if_neg hlt] at h
        exact ih (fun y hy => hsub y (List.mem_cons_of_mem _ hy)) best score hbest hts n h

lemma identifyLoop_stay_of_le {emb : List ℝ} :
    ∀ (rest : List (String × SpeakerProfile)) (best : Option String) (score : ℝ),
      (∀ x ∈ rest, ∀ s, cosine_similarity emb x.2.embedding = .ok s → s ≤ score) →
      ∀ b, identifyLoop emb rest best score = .ok b → b = best := by
  intro rest
  induction rest with
  | nil =>
    intro best score _ b h
    simp only [identifyLoop] at h
    exact (by injection h : best = b).symm
  | cons x rest ih =>
    obtain ⟨nm, p⟩ := x
    intro best score hle b h
    simp only [identifyLoop] at h
    cases hc : cosine_similarity emb p.embedding with
    | error e => rw [hc] at h; simp at h
    | ok sim =>
      rw [hc] at h
      simp only at h
      have hsle : sim ≤ score := hle (nm, p) (List.mem_cons_self _ _) sim hc
      rw [if_neg (not_lt.mpr hsle)] at h
      exact ih best score (fun y hy => hle y (List.mem_cons_of_mem _ hy)) b h

lemma identifyLoop_all_le {emb : List ℝ} :
    ∀ (rest : List (String × SpeakerProfile)) (best : Option String) (score : ℝ),
      (∀ x ∈ rest, ∃ s, cosine_similarity emb x.2.embedding = .ok s ∧ s ≤ score) →
      identifyLoop emb rest best score = .ok best := by
  intro rest
  induction rest with
  | nil => intro best score _; simp [identifyLoop]
  | cons x rest ih =>
    obtain ⟨nm, p⟩ := x
    intro best score hle
    obtain ⟨s, hcs, hsle⟩ := hle (nm, p) (List.mem_cons_self _ _)
    simp only [identifyLoop, hcs]
    rw [if_neg (not_lt.mpr hsle)]
    exact ih best score (fun y hy => hle y (List.mem_cons_of_mem _ hy))

lemma identifyLoop_first_max {emb : List ℝ} {M : ℝ} {n : String} {p : SpeakerProfile}
    {ys : List (String × SpeakerProfile)}
    (hp : cosine_similarity emb p.embedding = .ok M)
    (hys : ∀ y ∈ ys, ∃ s, cosine_similarity emb y.2.embedding = .ok s ∧ s ≤ M) :
    ∀ (xs : List (String × SpeakerProfile)) (best : Option String) (score : ℝ),
      (∀ x ∈ xs, ∃ s, cosine_similarity emb x.2.embedding = .ok s ∧ s < M) →
      score < M →
      identifyLoop emb (xs ++ (n, p) :: ys) best score = .ok (some n) := by
  intro xs
  induction xs with
  | nil =>
    intro best score _ hsM
    simp only [List.nil_append, identifyLoop, hp]
    rw [if_pos hsM]
    exact identifyLoop_all_le ys (some n) M hys
  | cons x xs ih =>
    obtain ⟨nm, q⟩ := x
    intro best score hxs hsM
    obtain ⟨s, hcs, hsM'⟩ := hxs (nm, q) (List.mem_cons_self _ _)
    simp only [List.cons_append, identifyLoop, hcs]
    by_cases hlt : score < s
    · rw [if_pos hlt]
      exact ih (some nm) s (fun y hy => hxs y (List.mem_cons_of_mem _ hy)) hsM'
    · rw [if_neg hlt]
      exact ih best score (fun y hy => hxs y (List.mem_cons_of_mem _ hy)) hsM

lemma mem_inj_of_nodup_keys {l : List (String × SpeakerProfile)} {a : String}
    {b₁ b₂ : SpeakerProfile} (hnd : (l.map Prod.fst).Nodup)
    (h₁ : (a, b₁) ∈ l) (h₂ : (a, b₂) ∈ l) : b₁ = b₂ := by
  induction l with
  | nil => simp at h₁
  | cons x l ih =>
    simp only [List.map_cons, List.nodup_cons] at hnd
    rcases List.mem_cons.mp h₁ with h₁ | h₁ <;> rcases List.mem_cons.mp h₂ with h₂ | h₂
    · rw [← h₁] at h₂; exact (Prod.mk.injEq _ _ _ _).mp h₂.symm |>.2
    · exact absurd (List.mem_map_of_mem Prod.fst h₂) (by rw [← h₁] at hnd; exact hnd.1)
    · exact absurd (List.mem_map_of_mem Prod.fst h₁) (by rw [← h₂] at hnd; exact hnd.1)
    · exact ih hnd.2 h₁ h₂

lemma cos_unit : cosine_similarity [(1 : ℝ)] [(1 : ℝ)] = .ok 1 := by
  have hd : dotList [(1 : ℝ)] [(1 : ℝ)] = 1 := by norm_num [dotList]
  simp [cosine_similarity, l2norm, hd, Real.sqrt_one]

/-- C1: `identify_speaker` returns a name only when that name's profile
has cosine similarity strictly above the threshold; with the default
threshold 0.7 a profile at similarity exactly 0.7 is never returned
(given unique names, as in a dict); an empty profile set yields no
match; and if no similarity exceeds the threshold the result is
absent. -/
theorem identify_speaker_strictly_above_threshold :
    (∀ (profiles : List (String × SpeakerProfile)) (emb : List ℝ) (t : ℝ) (n : String),
      identify_speaker profiles emb t = .ok (some n) →
      ∃ p s, (n, p) ∈ profiles ∧ cosine_similarity emb p.embedding = .ok s ∧ t < s)
    ∧ (∀ (emb : List ℝ) (t : ℝ), identify_speaker [] emb t = .ok none)
    ∧ (∀ (profiles : List (String × SpeakerProfile)) (emb : List ℝ) (t : ℝ),
      (∀ x ∈ profiles, ∀ s, cosine_similarity emb x.2.embedding = .ok s → s ≤ t) →
      ∀ n, identify_speaker profiles emb t ≠ .ok (some n))
    ∧ (∀ (profiles : List (String × SpeakerProfile)) (emb : List ℝ) (n : String)
        (p : SpeakerProfile), (profiles.map Prod.fst).Nodup → (n, p) ∈ profiles →
      cosine_similarity emb p.embedding = .ok (7 / 10) →
      identify_speaker profiles emb (7 / 10) ≠ .ok (some n)) := by
  have main : ∀ (profiles : List (String × SpeakerProfile)) (emb : List ℝ) (t : ℝ)
      (n : String), identify_speaker profiles emb t = .ok (some n) →
      ∃ p s, (n, p) ∈ profiles ∧ cosine_similarity emb p.embedding = .ok s ∧ t < s := by
    intro profiles emb t n h
    unfold identify_speaker at h
    by_cases he : profiles.isEmpty
    · rw [if_pos he] at h; simp at h
    · rw [if_neg he] at h
      exact identifyLoop_ok_some profiles (fun x hx => hx) none t (by simp) le_rfl n h
  refine ⟨main, ?_, ?_, ?_⟩
  · intro emb t; simp [identify_speaker]
  · intro profiles emb t hle n h
    unfold identify_speaker at h
    by_cases he : profiles.isEmpty
    · rw [if_pos he] at h; simp at h
    · rw [if_neg he] at h
      exact Option.noConfusion (identifyLoop_stay_of_le profiles none t hle (some n) h)
  · intro profiles emb n p hnd hmem hc h
    obtain ⟨p', s, hmem', hc', hlt⟩ := main profiles emb (7 / 10) n h
    obtain rfl : p = p' := mem_inj_of_nodup_keys hnd hmem hmem'
    rw [hc] at hc'
    have : s = 7 / 10 := by injection hc' with h'; exact h'.symm
    exact absurd (this ▸ hlt) (lt_irrefl _)

/-- C1 witness: a concrete profile with similarity 1 above threshold
one half is returned, and the theorem recovers a strict exceedance. -/
theorem identify_speaker_strictly_above_threshold_witness :
    ∃ p s, ("Alice", p) ∈ [("Alice", (⟨"Alice", [(1 : ℝ)], "a.wav", "t0"⟩ : SpeakerProfile))]
      ∧ cosine_similarity [(1 : ℝ)] p.embedding = .ok s ∧ (1 / 2 : ℝ) < s :=
  identify_speaker_strictly_above_threshold.1
    [("Alice", ⟨"Alice", [(1 : ℝ)], "a.wav", "t0"⟩)] [(1 : ℝ)] (1 / 2) "Alice"
    (by
      simp only [identify_speaker, List.isEmpty_cons, identifyLoop, cos_unit]
      norm_num [identifyLoop])

/-- C2: when several profiles attain the maximum similarity and that
maximum exceeds the threshold, `identify_speaker` returns the profile
encountered first in the iteration order over the profile dict (strict
improvement is required to displace the current best, so the first
profile attaining the maximum wins); as a pure function of the ordered
profile list the result is deterministic. -/
theorem identify_speaker_first_of_max_wins :
    ∀ (xs ys : List (String × SpeakerProfile)) (n : String) (p : SpeakerProfile)
      (emb : List ℝ) (t M : ℝ),
      cosine_similarity emb p.embedding = .ok M →
      t < M →
      (∀ x ∈ xs, ∃ s, cosine_similarity emb x.2.embedding = .ok s ∧ s < M) →
      (∀ y ∈ ys, ∃ s, cosine_similarity emb y.2.embedding = .ok s ∧ s ≤ M) →
      identify_speaker (xs ++ (n, p) :: ys) emb t = .ok (some n) := by
  intro xs ys n p emb t M hp htM hxs hys
  unfold identify_speaker
  rw [if_neg (by simp)]
  exact identifyLoop_first_max hp hys xs none t hxs htM

/-- C2 witness: two profiles both at the maximum similarity 1 with
threshold one half; the first one in iteration order is returned. -/
theorem identify_speaker_first_of_max_wins_witness :
    identify_speaker
      ([] ++ ("Alice", (⟨"Alice", [(1 : ℝ)], "a.wav", "t0"⟩ : SpeakerProfile)) ::
        [("Bob", (⟨"Bob", [(1 : ℝ)], "b.wav", "t1"⟩ : SpeakerProfile))])
      [(1 : ℝ)] (1 / 2) = .ok (some "Alice") :=
  identify_speaker_first_of_max_wins [] _ "Alice" _ [(1 : ℝ)] (1 / 2) 1
    cos_unit (by norm_num) (by simp)
    (by
      intro y hy
      rcases List.mem_singleton.mp hy with rfl
      exact ⟨1, cos_unit, le_rfl⟩)

lemma identifyLoop_mismatch {emb : List ℝ} :
    ∀ (rest : List (String × SpeakerProfile)) (best : Option String) (score : ℝ),
      (∃ x ∈ rest, emb.length ≠ x.2.embedding.length) →
      identifyLoop emb rest best score = .error "DimensionMismatch" := by
  intro rest
  induction rest with
  | nil => intro best score h; simp at h
  | cons x rest ih =>
    obtain ⟨nm, p⟩ := x
    intro best score h
    cases hc : cosine_similarity emb p.embedding with
    | error e =>
      simp only [identifyLoop, hc]
      rw [cosine_similarity_error_eq hc]
    | ok sim =>
      have hlen : emb.length = p.embedding.length := cosine_similarity_ok_length hc
      obtain ⟨y, hy, hne⟩ := h
      rcases List.mem_cons.mp hy with rfl | hy'
      · exact absurd hlen hne
      · simp only [identifyLoop, hc]
        by_cases hlt : score < sim
        · rw [if_pos hlt]; exact ih (some nm) sim ⟨y, hy', hne⟩
        · rw [if_neg hlt]; exact ih best score ⟨y, hy', hne⟩

/-- C3: comparing embeddings of differing lengths is a
`DimensionMismatch` error, both at the level of `_cosine_similarity`
and propagated out of `identify_speaker` whenever some profile's
embedding length differs from the query's: no numeric similarity and no
absent result is produced. -/
theorem cosine_similarity_dimension_mismatch :
    (∀ a b : List ℝ, a.length ≠ b.length →
      cosine_similarity a b = .error "DimensionMismatch")
    ∧ (∀ (profiles : List (String × SpeakerProfile)) (emb : List ℝ) (t : ℝ),
      (∃ x ∈ profiles, emb.length ≠ x.2.embedding.length) →
      identify_speaker profiles emb t = .error "DimensionMismatch") := by
  constructor
  · intro a b h
    unfold cosine_similarity
    rw [if_neg h]
  · intro profiles emb t h
    unfold identify_speaker
    have hne : ¬profiles.isEmpty := by
      obtain ⟨x, hx, _⟩ := h
      rcases profiles with _ | _ <;> simp_all
    rw [if_neg hne]
    exact identifyLoop_mismatch profiles none t h

/-- C3 witness: a one-dimensional query against a two-dimensional
profile embedding is rejected with a dimension mismatch. -/
theorem cosine_similarity_dimension_mismatch_witness :
    cosine_similarity [(1 : ℝ)] [(1 : ℝ), 0] = .error "DimensionMismatch" :=
  cosine_similarity_dimension_mismatch.1 [(1 : ℝ)] [(1 : ℝ), 0] (by simp)

/-- C4: resolving speakers against an empty profile library returns an
empty mapping, performs zero embedding-collaborator calls, and never
constructs the embedding model. -/
theorem identify_speakers_empty_library :
    ∀ (embed : List ℝ → List ℝ) (segs : List DiarSeg) (wave : List ℝ),
      identify_speakers [] embed segs wave = (.ok [], 0, false) := by
  intro embed segs wave
  simp [identify_speakers]

lemma lookup_append {β : Type} (m₁ m₂ : List (String × β)) (k : String) :
    (m₁ ++ m₂).lookup k =
      match m₁.lookup k with
      | some v => some v
      | none => m₂.lookup k := by
  induction m₁ with
  | nil => simp [List.lookup]
  | cons x m₁ ih =>
    obtain ⟨k', v⟩ := x
    cases hk : (k == k') <;> simp [List.lookup, hk, ih]

lemma lookup_isSome_iff {β : Type} (m : List (String × β)) (k : String) :
    (m.lookup k).isSome ↔ k ∈ m.map Prod.fst := by
  induction m with
  | nil => simp [List.lookup]
  | cons x m ih =>
    obtain ⟨k', v⟩ := x
    cases hk : (k == k')
    · have hne : k ≠ k' := by simpa using hk
      simp [List.lookup, hk, ih, hne]
    · have heq : k = k' := by simpa using hk
      simp [List.lookup, hk, heq]

lemma buildEmbeddings_lookup (embed : List ℝ → List ℝ) (wave : List ℝ) :
    ∀ (segs : List DiarSeg) (m : List (String × List ℝ)) (c : ℕ) (l : String),
      (buildEmbeddings embed wave segs (m, c)).1.lookup l =
        match m.lookup l with
        | some v => some v
        | none =>
          (segs.find? fun s => s.label == l).map fun s => embed (segSlice wave s) := by
  intro segs
  induction segs with
  | nil =>
    intro m c l
    simp only [buildEmbeddings]
    cases m.lookup l <;> simp
  | cons s segs ih =>
    intro m c l
    by_cases hm : (m.lookup s.label).isSome
    · rw [show buildEmbeddings embed wave (s :: segs) (m, c)
          = buildEmbeddings embed wave segs (m, c) by simp [buildEmbeddings, hm]]
      rw [ih]
      cases hml : m.lookup l with
      | some v => rfl
      | none =>
        have hne : ¬(s.label == l) := by
          intro hb
          have : s.label = l := by simpa using hb
          rw [← this] at hml
          rw [hml] at hm
          simp at hm
        simp [List.find?, hne]
    · rw [show buildEmbeddings embed wave (s :: segs) (m, c)
          = buildEmbeddings embed wave segs
              (m ++ [(s.label, embed (segSlice wave s))], c + 1) by
        simp [buildEmbeddings, hm]]
      rw [ih]
      cases hml : m.lookup l with
      | some v =>
        rw [show (m ++ [(s.label, embed (segSlice wave s))]).lookup l = some v by
          rw [lookup_append, hml]]
      | none =>
        rw [lookup_append, hml]
        cases hsl : (s.label == l)
        · have hne : s.label ≠ l := by simpa using hsl
          have hls : (l == s.label) = false := by
            simpa using hne.symm
          simp [List.lookup, List.find?, hsl, hls]
        · have heq : s.label = l := by simpa using hsl
          subst heq
          simp [List.lookup, List.find?]

lemma card_insert_sdiff {a : String} {S K : Finset String} (ha : a ∉ K) :
    ((insert a S) \ K).card = (S \ (K ∪ {a})).card + 1 := by
  have h1 : insert a S \ K = insert a (S \ K) := by
    ext x
    simp only [Finset.mem_sdiff, Finset.mem_insert]
    constructor
    · rintro ⟨hx | hx, hk⟩
      · exact Or.inl hx
      · exact Or.inr ⟨hx, hk⟩
    · rintro (rfl | ⟨hx, hk⟩)
      · exact ⟨Or.inl rfl, ha⟩
      · exact ⟨Or.inr hx, hk⟩
  have h2 : S \ (K ∪ {a}) = (S \ K).erase a := by
    ext x
    simp only [Finset.mem_sdiff, Finset.mem_union, Finset.mem_erase,
      Finset.mem_singleton]
    tauto
  rw [h1, h2]
  by_cases haT : a ∈ S \ K
  · rw [Finset.insert_eq_self.mpr haT]
    exact (Finset.card_erase_add_one haT).symm
  · rw [Finset.card_insert_of_not_mem haT, Finset.erase_eq_of_not_mem haT]

lemma buildEmbeddings_count (embed : List ℝ → List ℝ) (wave : List ℝ) :
    ∀ (segs : List DiarSeg) (m : List (String × List ℝ)) (c : ℕ),
      (buildEmbeddings embed wave segs (m, c)).2 =
        c + ((segs.map DiarSeg.label).toFinset \ (m.map Prod.fst).toFinset).card := by
  intro segs
  induction segs with
  | nil => intro m c; simp [buildEmbeddings]
  | cons s segs ih =>
    intro m c
    by_cases hm : (m.lookup s.label).isSome
    · rw [show buildEmbeddings embed wave (s :: segs) (m, c)
          = buildEmbeddings embed wave segs (m, c) by simp [buildEmbeddings, hm]]
      rw [ih]
      congr 1
      rw [List.map_cons, List.toFinset_cons,
        Finset.insert_sdiff_of_mem _ (by
          rw [List.mem_toFinset]
          exact (lookup_isSome_iff m s.label).mp hm)]
    · rw [show buildEmbeddings embed wave (s :: segs) (m, c)
          = buildEmbeddings embed wave segs
              (m ++ [(s.label, embed (segSlice wave s))], c + 1) by
        simp [buildEmbeddings, hm]]
      rw [ih]
      have hnotin : s.label ∉ (m.map Prod.fst).toFinset := by
        rw [List.mem_toFinset]
        intro hmem
        exact hm ((lookup_isSome_iff m s.label).mpr hmem)
      rw [List.map_cons, List.toFinset_cons, card_insert_sdiff hnotin]
      have hK : ((m ++ [(s.label, embed (segSlice wave s))]).map Prod.fst).toFinset
          = (m.map Prod.fst).toFinset ∪ {s.label} := by
        simp
      rw [hK]
      omega

/-- C5: in the per-label embedding pass of `identify_speakers`, each
anonymous label's representative embedding is the embedding of the
slice of the first segment bearing that label in segment order, and the
number of embedding-collaborator calls equals the number of distinct
labels (so later segments with an already-seen label trigger no further
computation). -/
theorem buildEmbeddings_once_from_first_segment :
    ∀ (embed : List ℝ → List ℝ) (wave : List ℝ) (segs : List DiarSeg),
      (∀ l : String,
        (buildEmbeddings embed wave segs ([], 0)).1.lookup l =
          (segs.find? fun s => s.label == l).map fun s => embed (segSlice wave s))
      ∧ (buildEmbeddings embed wave segs ([], 0)).2 =
          (segs.map DiarSeg.label).dedup.length := by
  intro embed wave segs
  constructor
  · intro l
    rw [buildEmbeddings_lookup]
    simp [List.lookup]
  · rw [buildEmbeddings_count]
    simp [List.card_toFinset]

/-- C6 counterexample: a segment with an inverted time range (start 2s,
end 1s) yields an empty audio slice, yet an embedding is still computed
for its label (one collaborator call is made) and the label is mapped
when that embedding matches a profile — contradicting the claim that no
embedding is attempted and the label remains unmapped. -/
theorem identify_speakers_inverted_range_still_embeds :
    identify_speakers
      [("Alice", (⟨"Alice", [(1 : ℝ)], "a.wav", "t0"⟩ : SpeakerProfile))]
      (fun _ => [(1 : ℝ)]) [⟨2, 1, "SPEAKER_00"⟩] []
      = (.ok [("SPEAKER_00", "Alice")], 1, true) := by
  have hbuild : buildEmbeddings (fun _ => [(1 : ℝ)]) []
      [(⟨2, 1, "SPEAKER_00"⟩ : DiarSeg)] ([], 0)
      = ([("SPEAKER_00", [(1 : ℝ)])], 1) := by
    simp [buildEmbeddings, List.lookup]
  have hid : identify_speaker
      [("Alice", (⟨"Alice", [(1 : ℝ)], "a.wav", "t0"⟩ : SpeakerProfile))]
      [(1 : ℝ)] (7 / 10) = .ok (some "Alice") := by
    simp only [identify_speaker, List.isEmpty_cons, identifyLoop, cos_unit]
    norm_num [identifyLoop]
  have hmatch : matchLoop
      [("Alice", (⟨"Alice", [(1 : ℝ)], "a.wav", "t0"⟩ : SpeakerProfile))]
      [("SPEAKER_00", [(1 : ℝ)])] = .ok [("SPEAKER_00", "Alice")] := by
    simp [matchLoop, hid]
  unfold identify_speakers
  rw [if_neg (by simp)]
  simp only [hbuild]
  rw [hmatch]

/-- C6 amended: a segment whose range extends past the available audio
is clipped — the extracted slice is always a contiguous part of the
available samples, and no failure occurs — but a zero-length or
inverted range after clipping is NOT skipped: its (empty) slice is
embedded like any other first occurrence of a label, so the number of
embedding calls is still one per distinct label and the label is mapped
or not according to the match result. -/
theorem identify_speakers_clips_and_still_embeds :
    ∀ (embed : List ℝ → List ℝ) (wave : List ℝ) (segs : List DiarSeg)
      (profiles : List (String × SpeakerProfile)),
      (∀ s : DiarSeg, (segSlice wave s).IsInfix wave)
      ∧ (profiles ≠ [] →
          (identify_speakers profiles embed segs wave).2.1 =
            (segs.map DiarSeg.label).dedup.length) := by
  intro embed wave segs profiles
  constructor
  · intro s
    have h1 : ((wave.take (pyBound wave.length (pyInt (s.stop * 16000)))).drop
        (pyBound wave.length (pyInt (s.start * 16000)))) <:+
        wave.take (pyBound wave.length (pyInt (s.stop * 16000))) :=
      List.drop_suffix _ _
    have h2 : wave.take (pyBound wave.length (pyInt (s.stop * 16000))) <+: wave :=
      List.take_prefix _ _
    exact h1.isInfix.trans h2.isInfix
  · intro hne
    unfold identify_speakers
    rw [if_neg (by simpa using hne)]
    show (buildEmbeddings embed wave segs ([], 0)).2 = _
    rw [buildEmbeddings_count]
    simp [List.card_toFinset]

/-- C6 amended witness: one zero-length segment, nonempty library — the
embedding-call counter still counts its label once. -/
theorem identify_speakers_clips_and_still_embeds_witness :
    (identify_speakers
      [("Alice", (⟨"Alice", [(1 : ℝ)], "a.wav", "t0"⟩ : SpeakerProfile))]
      (fun _ => [(1 : ℝ)]) [⟨0, 0, "SPEAKER_00"⟩] []).2.1 =
      ([(⟨0, 0, "SPEAKER_00"⟩ : DiarSeg)].map DiarSeg.label).dedup.length :=
  (identify_speakers_clips_and_still_embeds (fun _ => [(1 : ℝ)]) []
    [⟨0, 0, "SPEAKER_00"⟩]
    [("Alice", ⟨"Alice", [(1 : ℝ)], "a.wav", "t0"⟩)]).2 (by simp)

/-- C7: the merged transcript is sorted non-decreasing by segment start
time, and the sort is stable over the concatenation self-then-others:
a self-track segment with the same start as an others-track segment
precedes it in the merged output. -/
theorem merge_segments_sorted_and_stable :
    ∀ (selfSegs othersSegs : List TSeg),
      (merge_segments selfSegs othersSegs).Pairwise (fun a b => a.start ≤ b.start)
      ∧ (∀ s o, s ∈ selfSegs → o ∈ othersSegs → s.start = o.start →
          List.Sublist [s, o] (merge_segments selfSegs othersSegs)) := by
  have trans : ∀ a b c : TSeg, (decide (a.start ≤ b.start)) →
      (decide (b.start ≤ c.start)) → (decide (a.start ≤ c.start)) := by
    intro a b c hab hbc
    simp only [decide_eq_true_eq] at *
    exact le_trans hab hbc
  have total : ∀ a b : TSeg,
      (decide (a.start ≤ b.start)) || (decide (b.start ≤ a.start)) := by
    intro a b
    simp only [Bool.or_eq_true, decide_eq_true_eq]
    exact le_total _ _
  intro selfSegs othersSegs
  constructor
  · have h := @List.sorted_mergeSort TSeg
      (fun a b : TSeg => decide (a.start ≤ b.start))
      trans total (selfSegs ++ othersSegs)
    exact h.imp (by intro a b hab; simpa using hab)
  · intro s o hs ho heq
    refine List.pair_sublist_mergeSort trans total (by simp [heq]) ?_
    have : List.Sublist ([s] ++ [o]) (selfSegs ++ othersSegs) :=
      List.Sublist.append (List.singleton_sublist.mpr hs) (List.singleton_sublist.mpr ho)
    simpa using this

/-- C7 witness: the scenario from the spec — a self segment and an
others segment sharing start 0 merge with the self segment first. -/
theorem merge_segments_sorted_and_stable_witness :
    List.Sublist [(⟨0, "Me", "hi"⟩ : TSeg), (⟨0, "SPEAKER_00", "there"⟩ : TSeg)]
      (merge_segments [⟨0, "Me", "hi"⟩] [⟨0, "SPEAKER_00", "there"⟩]) :=
  (merge_segments_sorted_and_stable [⟨0, "Me", "hi"⟩] [⟨0, "SPEAKER_00", "there"⟩]).2
    ⟨0, "Me", "hi"⟩ ⟨0, "SPEAKER_00", "there"⟩ (by simp) (by simp) rfl

/-- C8: for non-negative seconds, the rendered timestamp is the
truncation to integer seconds split into hours, minutes and seconds,
each zero-padded to two digits with the hour count unbounded (the
divmod chain of the code equals the spec's h/m/s decomposition); in
particular 3661.9 seconds renders as 01:01:01, not 01:01:02. -/
theorem format_timestamp_truncates_hms :
    (∀ q : ℚ, 0 ≤ q → format_timestamp q = renderHMS (⌊q⌋.toNat))
    ∧ format_timestamp (36619 / 10 : ℚ) = "01:01:01" := by
  have main : ∀ q : ℚ, 0 ≤ q → format_timestamp q = renderHMS (⌊q⌋.toNat) := by
    intro q hq
    have hpy : pyInt q = ⌊q⌋ := if_pos hq
    have hfl : 0 ≤ ⌊q⌋ := Int.floor_nonneg.mpr hq
    obtain ⟨m, hm⟩ : ∃ m : ℕ, ⌊q⌋ = (m : ℤ) :=
      ⟨⌊q⌋.toNat, (Int.toNat_of_nonneg hfl).symm⟩
    simp only [format_timestamp, renderHMS, hpy, hm, Int.toNat_natCast]
    have e1 : (((m : ℕ) : ℤ).ediv 60).ediv 60 = ((m / 60 / 60 : ℕ) : ℤ) := rfl
    have e2 : (((m : ℕ) : ℤ).ediv 60).emod 60 = ((m / 60 % 60 : ℕ) : ℤ) := rfl
    have e3 : ((m : ℕ) : ℤ).emod 60 = ((m % 60 : ℕ) : ℤ) := rfl
    rw [e1, e2, e3, Nat.div_div_eq_div_mul, ← Nat.mod_mul_right_div_self]
  refine ⟨main, ?_⟩
  rw [main (36619 / 10) (by norm_num)]
  have hf : (⌊(36619 / 10 : ℚ)⌋) = 3661 := by norm_num
  rw [hf]
  rfl

/-- C8 witness: the theorem applied at 3661.9 seconds, whose floor is
3661, rendering 01:01:01 by truncation. -/
theorem format_timestamp_truncates_hms_witness :
    (0 : ℚ) ≤ 36619 / 10 ∧
      format_timestamp (36619 / 10 : ℚ) = renderHMS ((⌊(36619 / 10 : ℚ)⌋).toNat) :=
  ⟨by norm_num, format_timestamp_truncates_hms.1 (36619 / 10) (by norm_num)⟩

/-- C9 counterexample: when the audio file exists, the speaker is
already enrolled, and the user answers "n" to the overwrite prompt,
`cmd_enroll` calls `sys.exit(0)` — the exit code is 0, not the 1 the
claim requires for a declined overwrite. -/
theorem cmd_enroll_decline_exits_zero :
    cmd_enroll true true "n" false = 0 ∧ cmd_enroll true true "n" false ≠ 1 := by
  constructor <;> decide

/-- C9 amended: the enroll command exits with code 1 exactly when the
audio file is missing, or when enrollment proceeds (either the name was
not yet enrolled, or the user confirmed the overwrite with "y") and the
library raises; it exits with code 0 on successful enrollment and also
when the user declines the overwrite confirmation. -/
theorem cmd_enroll_exit_codes :
    ∀ (audio_exists already_enrolled : Bool) (response : String)
      (enroll_raises : Bool),
      (cmd_enroll audio_exists already_enrolled response enroll_raises = 1 ↔
        (audio_exists = false ∨
          ((already_enrolled = false ∨ pyLower response = "y")
            ∧ enroll_raises = true)))
      ∧ (cmd_enroll audio_exists already_enrolled response enroll_raises = 0 ↔
        ¬(audio_exists = false ∨
          ((already_enrolled = false ∨ pyLower response = "y")
            ∧ enroll_raises = true))) := by
  intro audio_exists already_enrolled response enroll_raises
  by_cases hr : pyLower response = "y" <;>
    cases audio_exists <;> cases already_enrolled <;> cases enroll_raises <;>
    simp [cmd_enroll, hr]

/-- C9 amended witness: a missing audio file exits with code 1. -/
theorem cmd_enroll_exit_codes_witness :
    cmd_enroll false true "y" true = 1 :=
  (cmd_enroll_exit_codes false true "y" true).1.mpr (Or.inl rfl)

lemma mem_keys_iff {β : Type} (m : List (String × β)) (k : String) :
    k ∈ m.map Prod.fst ↔ ∃ v, (k, v) ∈ m := by
  constructor
  · intro h
    obtain ⟨⟨k', v⟩, hm, hf⟩ := List.mem_map.mp h
    cases hf
    exact ⟨v, hm⟩
  · rintro ⟨v, hv⟩
    exact List.mem_map_of_mem Prod.fst hv

lemma mem_dictInsert_self (m : List (String × SpeakerProfile)) (k : String)
    (v : SpeakerProfile) : (k, v) ∈ dictInsert m k v := by
  unfold dictInsert
  by_cases hm : (m.lookup k).isSome
  · rw [if_pos hm]
    obtain ⟨p, hp⟩ := (mem_keys_iff m k).mp ((lookup_isSome_iff m k).mp hm)
    refine List.mem_map.mpr ⟨(k, p), hp, ?_⟩
    simp
  · rw [if_neg hm]
    exact List.mem_append_right _ (List.mem_singleton.mpr rfl)

lemma mem_dictInsert_of_ne {m : List (String × SpeakerProfile)} {k k' : String}
    {p v : SpeakerProfile} (hmem : (k, p) ∈ m) (hne : k ≠ k') :
    (k, p) ∈ dictInsert m k' v := by
  unfold dictInsert
  by_cases hm : (m.lookup k').isSome
  · rw [if_pos hm]
    refine List.mem_map.mpr ⟨(k, p), hmem, ?_⟩
    simp [hne]
  · rw [if_neg hm]
    exact List.mem_append_left _ hmem

lemma not_mem_dictInsert {m : List (String × SpeakerProfile)} {k k' : String}
    {v : SpeakerProfile} (hne : k ≠ k') (hno : ∀ p, (k, p) ∉ m) :
    ∀ p, (k, p) ∉ dictInsert m k' v := by
  intro p hp
  unfold dictInsert at hp
  by_cases hm : (m.lookup k').isSome
  · rw [if_pos hm] at hp
    obtain ⟨⟨a, b⟩, hab, hgb⟩ := List.mem_map.mp hp
    by_cases ha : a == k'
    · rw [if_pos ha] at hgb
      injection hgb with h1 _
      exact hne h1.symm
    · rw [if_neg ha] at hgb
      rw [hgb] at hab
      exact hno p hab
  · rw [if_neg hm] at hp
    rcases List.mem_append.mp hp with h | h
    · exact hno p h
    · have h' := List.mem_singleton.mp h
      injection h' with h1 _
      exact hne h1

lemma loadStep_preserves {acc : List (String × SpeakerProfile)} {k : String}
    {p : SpeakerProfile} {f : ProfileFile} (hmem : (k, p) ∈ acc)
    (hne : k ≠ f.stem) : (k, p) ∈ loadStep acc f := by
  unfold loadStep
  cases f.npy with
  | none => exact hmem
  | some e => exact mem_dictInsert_of_ne hmem hne

lemma loadStep_not_introduces {acc : List (String × SpeakerProfile)} {k : String}
    {f : ProfileFile} (hne : k ≠ f.stem) (hno : ∀ p, (k, p) ∉ acc) :
    ∀ p, (k, p) ∉ loadStep acc f := by
  unfold loadStep
  cases f.npy with
  | none => exact hno
  | some e => exact not_mem_dictInsert hne hno

lemma foldl_loadStep_not_mem {k : String} :
    ∀ (files : List ProfileFile) (acc : List (String × SpeakerProfile)),
      (∀ g ∈ files, g.stem ≠ k) → (∀ p, (k, p) ∉ acc) →
      ∀ p, (k, p) ∉ files.foldl loadStep acc := by
  intro files
  induction files with
  | nil => intro acc _ hno; exact hno
  | cons g files ih =>
    intro acc hg hno
    refine ih (loadStep acc g) (fun g' hg' => hg g' (List.mem_cons_of_mem _ hg')) ?_
    exact loadStep_not_introduces
      (fun hk => hg g (List.mem_cons_self _ _) hk.symm) hno

lemma foldl_loadStep_persists {k : String} {p : SpeakerProfile} :
    ∀ (files : List ProfileFile) (acc : List (String × SpeakerProfile)),
      (k, p) ∈ acc → (∀ g ∈ files, g.stem ≠ k) →
      (k, p) ∈ files.foldl loadStep acc := by
  intro files
  induction files with
  | nil => intro acc hmem _; exact hmem
  | cons g files ih =>
    intro acc hmem hg
    refine ih (loadStep acc g) ?_ (fun g' hg' => hg g' (List.mem_cons_of_mem _ hg'))
    exact loadStep_preserves hmem (fun hk => hg g (List.mem_cons_self _ _) hk.symm)

lemma foldl_loadStep_mem {f : ProfileFile} {e : List ℝ} (hnpy : f.npy = some e) :
    ∀ (files : List ProfileFile) (acc : List (String × SpeakerProfile)),
      f ∈ files → (files.map ProfileFile.stem).Nodup →
      (f.stem, profileOf f e) ∈ files.foldl loadStep acc := by
  intro files
  induction files with
  | nil => intro acc h; simp at h
  | cons g files ih =>
    intro acc hmem hnd
    simp only [List.map_cons, List.nodup_cons] at hnd
    rcases List.mem_cons.mp hmem with rfl | hmem'
    · have hstep : (f.stem, profileOf f e) ∈ loadStep acc f := by
        unfold loadStep
        rw [hnpy]
        exact mem_dictInsert_self _ _ _
      refine foldl_loadStep_persists files (loadStep acc f) hstep ?_
      intro g' hg' hk
      exact hnd.1 (hk ▸ List.mem_map_of_mem ProfileFile.stem hg')
    · exact ih (loadStep acc g) hmem' hnd.2

lemma lookup_eq_none_of_no_mem {m : List (String × SpeakerProfile)} {k : String}
    (hno : ∀ p, (k, p) ∉ m) : m.lookup k = none := by
  rcases hm : m.lookup k with _ | v
  · rfl
  · obtain ⟨v', hv'⟩ := (mem_keys_iff m k).mp
      ((lookup_isSome_iff m k).mp (by rw [hm]; rfl))
    exact absurd hv' (hno v')

/-- C10: `load_profiles` keys its in-memory cache by the metadata
file's stem while the stored profile's `name` field comes from the
metadata contents; when the stem and the embedded name differ (and no
other artifact's stem equals that name), looking the loaded profile up
by its own name returns absent, while the profile sits in the cache
under the stem — so the invariant that every cache key equals its
profile's name fails. -/
theorem load_profiles_keyed_by_stem_not_name :
    ∀ (files : List ProfileFile) (f : ProfileFile) (e : List ℝ),
      f ∈ files → f.npy = some e → f.stem ≠ f.meta_name →
      (∀ g ∈ files, g.stem ≠ f.meta_name) →
      (files.map ProfileFile.stem).Nodup →
      get_profile (load_profiles files) f.meta_name = none
      ∧ (f.stem, profileOf f e) ∈ load_profiles files
      ∧ (profileOf f e).name = f.meta_name := by
  intro files f e hmem hnpy _ hstem hnd
  refine ⟨?_, foldl_loadStep_mem hnpy files [] hmem hnd, rfl⟩
  unfold get_profile load_profiles
  exact lookup_eq_none_of_no_mem
    (foldl_loadStep_not_mem files [] (fun g hg => hstem g hg) (by simp))

/-- C10 witness: one artifact whose stem "alice" differs from the
embedded name "Alice Smith": lookup by the profile's own name is
absent, and the cache entry's key differs from its profile's name. -/
theorem load_profiles_keyed_by_stem_not_name_witness :
    get_profile (load_profiles
        [⟨"alice", "Alice Smith", "rec.wav", "2024-01-01", some [(1 : ℝ)]⟩])
      "Alice Smith" = none
    ∧ ((⟨"alice", "Alice Smith", "rec.wav", "2024-01-01",
          some [(1 : ℝ)]⟩ : ProfileFile).stem,
        profileOf ⟨"alice", "Alice Smith", "rec.wav", "2024-01-01",
          some [(1 : ℝ)]⟩ [(1 : ℝ)]) ∈
        load_profiles
          [⟨"alice", "Alice Smith", "rec.wav", "2024-01-01", some [(1 : ℝ)]⟩]
    ∧ (profileOf ⟨"alice", "Alice Smith", "rec.wav", "2024-01-01",
        some [(1 : ℝ)]⟩ [(1 : ℝ)]).name =
        (⟨"alice", "Alice Smith", "rec.wav", "2024-01-01",
          some [(1 : ℝ)]⟩ : ProfileFile).meta_name :=
  load_profiles_keyed_by_stem_not_name
    [⟨"alice", "Alice Smith", "rec.wav", "2024-01-01", some [(1 : ℝ)]⟩]
    ⟨"alice", "Alice Smith", "rec.wav", "2024-01-01", some [(1 : ℝ)]⟩
    [(1 : ℝ)] (by simp) rfl (by decide)
    (by
      intro g hg
      rcases List.mem_singleton.mp hg with rfl
      decide)
    (by simp)
